import Mathlib

/-!
Verification of the core game logic of a checkers-like mine game
(source: src/Code/TheMineCheckers.py).

The board is a 6 x 5 grid of cells, each empty or holding a piece.
Pieces carry their own (row, col) coordinates and a color, exactly as the
Python `Piece` objects do.  Mines are a finite set of integer coordinates.
Randomness (mine sampling, tie-break choice) is modelled by explicit input
streams; a randomized loop that may not terminate returns `Option`, with
`some` meaning the Python loop returned.
-/

namespace MineCheckers

/-- The two piece colors (Python constants RED and BLUE). -/
inductive Color where
  | red
  | blue
deriving DecidableEq, Repr

/-- A game piece: its stored row, column and color (class `Piece`). -/
structure Piece where
  row : ℤ
  col : ℤ
  color : Color
deriving DecidableEq, Repr

/-- A cell is empty (Python `0`) or holds a piece. -/
abbrev Cell := Option Piece

/-- A board is a list of rows of cells (Python list-of-lists). -/
abbrev Board := List (List Cell)

/-- A mine set: coordinates of mined cells. -/
abbrev Mines := Finset (ℤ × ℤ)

/-- Number of rows (constant ROWS = 6). -/
def ROWS : ℤ := 6

/-- Number of columns (constant COLS = 5). -/
def COLS : ℤ := 5

/-- Reading `board[r][c]`; out-of-range reads yield an empty cell
(the Python code only indexes in bounds). -/
def boardGet (b : Board) (r c : ℤ) : Cell :=
  (b.getD r.toNat []).getD c.toNat none

/-- Writing `board[r][c] = v`; out-of-range writes are dropped. -/
def boardSet (b : Board) (r c : ℤ) (v : Cell) : Board :=
  b.set r.toNat ((b.getD r.toNat []).set c.toNat v)

/-- `create_board()`: Blue pieces fill row 0, Red pieces fill row ROWS-1. -/
def create_board : Board :=
  (List.range 6).map (fun r =>
    (List.range 5).map (fun c =>
      if r = 0 then some ⟨(r : ℤ), (c : ℤ), Color.blue⟩
      else if r = 5 then some ⟨(r : ℤ), (c : ℤ), Color.red⟩
      else none))

/-- The pieces of one color on the board, in the row-major order of the
Python loops `for row in board: for piece in row`. -/
def piecesOf (cl : Color) (b : Board) : List Piece :=
  (b.map (fun row => row.filterMap (fun cell =>
    match cell with
    | some p => if p.color = cl then some p else none
    | none => none))).flatten

/-- Direction set of a side (`get_valid_moves`): Red moves to row-1
straight/left/right plus laterals, Blue mirrored with row+1. -/
def directions (cl : Color) : List (ℤ × ℤ) :=
  match cl with
  | Color.red => [(-1, 0), (-1, -1), (-1, 1), (0, -1), (0, 1)]
  | Color.blue => [(1, 0), (1, -1), (1, 1), (0, -1), (0, 1)]

/-- One iteration of the `get_valid_moves` loop: append the destination if
it is in bounds, not a mine, and empty or held by an opposing piece. -/
def validStep (pc : Piece) (b : Board) (mines : Mines)
    (acc : List (ℤ × ℤ)) (d : ℤ × ℤ) : List (ℤ × ℤ) :=
  let r := pc.row + d.1
  let c := pc.col + d.2
  if 0 ≤ r ∧ r < ROWS ∧ 0 ≤ c ∧ c < COLS ∧ (r, c) ∉ mines then
    match boardGet b r c with
    | none => acc ++ [(r, c)]
    | some q => if q.color ≠ pc.color then acc ++ [(r, c)] else acc
  else acc

/-- `get_valid_moves(piece, board, mines)`: for each direction in order,
keep the destination if it is in bounds, not a mine, and empty or held by
an opposing piece. -/
def get_valid_moves (pc : Piece) (b : Board) (mines : Mines) : List (ℤ × ℤ) :=
  (directions pc.color).foldl (validStep pc b mines) []

/-- The board built inside the search loops: copy the board, clear the
piece's origin cell, then place a freshly constructed piece at the
destination (`new_board[piece.row][piece.col], new_board[move[0]][move[1]]
= 0, new_piece`). -/
def applyMove (b : Board) (pc : Piece) (mv : ℤ × ℤ) : Board :=
  boardSet (boardSet b pc.row pc.col none) mv.1 mv.2 (some ⟨mv.1, mv.2, pc.color⟩)

/-- Does `board[r][c]` hold a piece of color `cl`
(`isinstance(board[r][c], Piece) and board[r][c].color == cl`)? -/
def isColorAt (b : Board) (cl : Color) (r c : ℤ) : Bool :=
  match boardGet b r c with
  | some p => decide (p.color = cl)
  | none => false

/-- Column scan of `check_win_condition`: for each column in order, first
the Red-on-row-0 test, then the Blue-on-row-(ROWS-1) test. -/
def checkWinAux (b : Board) : List ℤ → Option String
  | [] => none
  | c :: rest =>
    if isColorAt b Color.red 0 c then some "You won!"
    else if isColorAt b Color.blue (ROWS - 1) c then some "You lost!"
    else checkWinAux b rest

/-- `check_win_condition(board)`: scans columns 0..COLS-1. -/
def check_win_condition (b : Board) : Option String :=
  checkWinAux b ((List.range 5).map (fun n => (n : ℤ)))

/-- The number of pieces of one color on the board. -/
def countColor (cl : Color) (b : Board) : ℕ :=
  (b.map (fun row => row.countP (fun cell =>
    match cell with
    | some p => decide (p.color = cl)
    | none => false))).sum

/-- `check_no_pieces_left(board)`. -/
def check_no_pieces_left (b : Board) : Option String :=
  if countColor Color.red b = 0 then some "Red lost!"
  else if countColor Color.blue b = 0 then some "Blue lost!"
  else none

/-- `evaluate(board) = blue_pieces - red_pieces`. -/
def evaluate (b : Board) : ℤ :=
  (countColor Color.blue b : ℤ) - (countColor Color.red b : ℤ)

/-- Search scores: integers extended with -infinity and +infinity
(Python floats are exact here: only integers and +-inf occur). -/
abbrev Score := WithBot (WithTop ℤ)

/-- Embed an integer into `Score`. -/
def iz (n : ℤ) : Score := ((n : WithTop ℤ) : Score)

/-- Value returned by `minimax` at a leaf (depth 0 or a decided game):
-infinity on "You won!" (Red reached row 0), +infinity on "You lost!"
(Blue reached the last row), otherwise the static evaluation. -/
def leafScore (b : Board) : Score :=
  match check_win_condition b with
  | some msg =>
    if msg = "You won!" then ⊥
    else if msg = "You lost!" then ⊤
    else iz (evaluate b)
  | none => iz (evaluate b)

/-! ### The search engine

`minimax(board, depth, alpha, beta, maximizing_player, mines)` is embedded
with its two loop levels made explicit.  In the maximizing branch the
mutable state is the pair `(alpha, max_eval)`; the `break` leaves only the
innermost per-piece move loop, so the per-move loop returns the state at
which it stopped and the per-piece loop continues from it.  Dually for the
minimizing branch with `(beta, min_eval)`. -/

/-- The inner move loop of the maximizing branch: for each move of one
Blue piece, evaluate the child, update `max_eval` and `alpha`, and break
out of this piece's moves once `beta <= alpha`. -/
def maxMoveLoop (ev : Board → Score → Score → Score) (b : Board) (pc : Piece)
    (beta : Score) : List (ℤ × ℤ) → Score × Score → Score × Score
  | [], st => st
  | mv :: rest, (alpha, mEv) =>
    let e := ev (applyMove b pc mv) alpha beta
    let mEv' := max mEv e
    let alpha' := max alpha e
    if beta ≤ alpha' then (alpha', mEv')
    else maxMoveLoop ev b pc beta rest (alpha', mEv')

/-- The outer piece loop of the maximizing branch. -/
def maxPieceLoop (ev : Board → Score → Score → Score) (b : Board)
    (mines : Mines) (beta : Score) : List Piece → Score × Score → Score × Score
  | [], st => st
  | pc :: rest, st =>
    maxPieceLoop ev b mines beta rest
      (maxMoveLoop ev b pc beta (get_valid_moves pc b mines) st)

/-- The inner move loop of the minimizing branch: state `(beta, min_eval)`. -/
def minMoveLoop (ev : Board → Score → Score → Score) (b : Board) (pc : Piece)
    (alpha : Score) : List (ℤ × ℤ) → Score × Score → Score × Score
  | [], st => st
  | mv :: rest, (beta, mEv) =>
    let e := ev (applyMove b pc mv) alpha beta
    let mEv' := min mEv e
    let beta' := min beta e
    if beta' ≤ alpha then (beta', mEv')
    else minMoveLoop ev b pc alpha rest (beta', mEv')

/-- The outer piece loop of the minimizing branch. -/
def minPieceLoop (ev : Board → Score → Score → Score) (b : Board)
    (mines : Mines) (alpha : Score) : List Piece → Score × Score → Score × Score
  | [], st => st
  | pc :: rest, st =>
    minPieceLoop ev b mines alpha rest
      (minMoveLoop ev b pc alpha (get_valid_moves pc b mines) st)

/-- `minimax(board, depth, alpha, beta, maximizing_player, mines)`. -/
def minimax (mines : Mines) : ℕ → Board → Score → Score → Bool → Score
  | 0, b, _, _, _ => leafScore b
  | d + 1, b, alpha, beta, maxing =>
    match check_win_condition b with
    | some msg =>
      if msg = "You won!" then ⊥
      else if msg = "You lost!" then ⊤
      else iz (evaluate b)
    | none =>
      if maxing then
        (maxPieceLoop (fun c a be => minimax mines d c a be false) b mines beta
          (piecesOf Color.blue b) (alpha, ⊥)).2
      else
        (minPieceLoop (fun c a be => minimax mines d c a be true) b mines alpha
          (piecesOf Color.red b) (beta, ⊤)).2

/-! ### The same recursion with all pruning removed -/

/-- Plain fold of `max` over the child values of one piece's moves. -/
def plainMoveFoldMax (v : Board → Score) (b : Board) (pc : Piece) :
    List (ℤ × ℤ) → Score → Score
  | [], acc => acc
  | mv :: rest, acc => plainMoveFoldMax v b pc rest (max acc (v (applyMove b pc mv)))

/-- Plain fold of `max` over all of a side's pieces. -/
def plainPieceFoldMax (v : Board → Score) (b : Board) (mines : Mines) :
    List Piece → Score → Score
  | [], acc => acc
  | pc :: rest, acc =>
    plainPieceFoldMax v b mines rest
      (plainMoveFoldMax v b pc (get_valid_moves pc b mines) acc)

/-- Plain fold of `min` over the child values of one piece's moves. -/
def plainMoveFoldMin (v : Board → Score) (b : Board) (pc : Piece) :
    List (ℤ × ℤ) → Score → Score
  | [], acc => acc
  | mv :: rest, acc => plainMoveFoldMin v b pc rest (min acc (v (applyMove b pc mv)))

/-- Plain fold of `min` over all of a side's pieces. -/
def plainPieceFoldMin (v : Board → Score) (b : Board) (mines : Mines) :
    List Piece → Score → Score
  | [], acc => acc
  | pc :: rest, acc =>
    plainPieceFoldMin v b mines rest
      (plainMoveFoldMin v b pc (get_valid_moves pc b mines) acc)

/-- The depth-limited minimax recursion with alpha-beta pruning removed:
same leaves, same move generation, same loop order, no alpha, no beta,
no break. -/
def plainMinimax (mines : Mines) : ℕ → Board → Bool → Score
  | 0, b, _ => leafScore b
  | d + 1, b, maxing =>
    match check_win_condition b with
    | some msg =>
      if msg = "You won!" then ⊥
      else if msg = "You lost!" then ⊤
      else iz (evaluate b)
    | none =>
      if maxing then
        plainPieceFoldMax (fun c => plainMinimax mines d c false) b mines
          (piecesOf Color.blue b) ⊥
      else
        plainPieceFoldMin (fun c => plainMinimax mines d c true) b mines
          (piecesOf Color.red b) ⊤

/-! ### Top-level move selection -/

/-- The (Blue piece, destination) pairs enumerated by `best_move` and
`find_winning_move`, in loop order. -/
def candidatePairs (b : Board) (mines : Mines) : List (Piece × (ℤ × ℤ)) :=
  ((piecesOf Color.blue b).map (fun pc =>
    (get_valid_moves pc b mines).map (fun mv => (pc, mv)))).flatten

/-- The score `best_move` computes for a candidate pair:
`minimax(new_board, 3, -inf, inf, False, mines)`. -/
def candScore (b : Board) (mines : Mines) (pm : Piece × (ℤ × ℤ)) : Score :=
  minimax mines 3 (applyMove b pm.1 pm.2) ⊥ ⊤ false

/-- The running-argmax fold of `best_move`: `if eval > best_eval` start a
new list, `elif eval == best_eval` append. -/
def bestFold (score : Piece × (ℤ × ℤ) → Score) :
    List (Piece × (ℤ × ℤ)) → Score × List (Piece × (ℤ × ℤ)) →
    Score × List (Piece × (ℤ × ℤ))
  | [], st => st
  | x :: rest, (be, acc) =>
    let e := score x
    if be < e then bestFold score rest (e, [x])
    else if e = be then bestFold score rest (be, acc ++ [x])
    else bestFold score rest (be, acc)

/-- The list `best_moves` accumulated by `best_move` before the random
choice. -/
def bestCandidates (b : Board) (mines : Mines) : List (Piece × (ℤ × ℤ)) :=
  (bestFold (candScore b mines) (candidatePairs b mines) (⊥, [])).2

/-- A default pair, used only to give `List.getD` its fallback. -/
def defaultPair : Piece × (ℤ × ℤ) := (⟨0, 0, Color.red⟩, (0, 0))

/-- `best_move(board, mines)`: `random.choice(best_moves)` if nonempty,
else `None`.  The uniform random draw is modelled by an arbitrary index
`k`; `random.choice` returns element `k % len` for the drawn `k`. -/
def best_move (b : Board) (mines : Mines) (k : ℕ) : Option (Piece × (ℤ × ℤ)) :=
  let c := bestCandidates b mines
  if c.isEmpty then none else some (c.getD (k % c.length) defaultPair)

/-- `find_winning_move(board, mines)`: the first (Blue piece, move) pair
whose destination row is ROWS - 1, if any. -/
def find_winning_move (b : Board) (mines : Mines) : Option (Piece × (ℤ × ℤ)) :=
  (candidatePairs b mines).find? (fun pm => decide (pm.2.1 = ROWS - 1))

/-! ### Mine generation

The `random.randint` draws are modelled by an input stream of seed pairs;
`random.randint(1, ROWS-2)` yields `1 + s % 4` and `random.randint(0,
COLS-1)` yields `s % 5`, so every drawn value is in the Python ranges.
The unbounded `while` loop returns `some` exactly when it terminates
within the provided stream. -/

/-- The row drawn from a seed: a value in [1, ROWS-2]. -/
def mineRow (s : ℕ) : ℤ := 1 + ((s % 4 : ℕ) : ℤ)

/-- The column drawn from a seed: a value in [0, COLS-1]. -/
def mineCol (s : ℕ) : ℤ := ((s % 5 : ℕ) : ℤ)

/-- The body of `generate_mines`: while `len(mines) < num_mines`, draw a
candidate; accept it if the board cell is empty and neither horizontal
neighbour is already a mine. -/
def genMinesAux (b : Board) (numMines : ℕ) :
    List (ℕ × ℕ) → Mines → Option Mines
  | [], mines => if numMines ≤ mines.card then some mines else none
  | s :: rest, mines =>
    if numMines ≤ mines.card then some mines
    else
      let row := mineRow s.1
      let col := mineCol s.2
      if boardGet b row col = none ∧
          (row, col - 1) ∉ mines ∧ (row, col + 1) ∉ mines then
        genMinesAux b numMines rest (insert (row, col) mines)
      else genMinesAux b numMines rest mines

/-- `generate_mines(board, num_mines=4)`. -/
def generate_mines (b : Board) (numMines : ℕ) (samples : List (ℕ × ℕ)) :
    Option Mines :=
  genMinesAux b numMines samples ∅

/-- `shuffle_mines(board, mines)`: regenerate until the new set has empty
intersection with the old one; each regeneration consumes one sample
stream. -/
def shuffle_mines (b : Board) (mines : Mines) :
    List (List (ℕ × ℕ)) → Option Mines
  | [] => none
  | s :: rest =>
    match generate_mines b 4 s with
    | none => none
    | some nm =>
      if 0 < (nm ∩ mines).card then shuffle_mines b mines rest
      else some nm

/-! ### Derived and spec-side definitions used by the theorems -/

/-- A candidate's score under the unpruned recursion. -/
def plainCandScore (b : Board) (mines : Mines) (pm : Piece × (ℤ × ℤ)) : Score :=
  plainMinimax mines 3 (applyMove b pm.1 pm.2) false

/-- The `best_moves` list as the unpruned search would build it. -/
def plainBestCandidates (b : Board) (mines : Mines) : List (Piece × (ℤ × ℤ)) :=
  (bestFold (plainCandScore b mines) (candidatePairs b mines) (⊥, [])).2

/-- The maximum candidate score (over all legal Blue pairs). -/
def maxCandScore (b : Board) (mines : Mines) : Score :=
  ((candidatePairs b mines).map (candScore b mines)).foldl max ⊥

/-- One destination of the spec-side move list: `some (r, c)` iff the
offset lands in bounds, off the mines, and on an empty or opposing cell. -/
def validSpecItem (pc : Piece) (b : Board) (mines : Mines) (d : ℤ × ℤ) :
    Option (ℤ × ℤ) :=
  let r := pc.row + d.1
  let c := pc.col + d.2
  if (0 ≤ r ∧ r < ROWS ∧ 0 ≤ c ∧ c < COLS) ∧ (r, c) ∉ mines ∧
      (boardGet b r c).all (fun q => decide (q.color ≠ pc.color)) = true then
    some (r, c)
  else none

/-- Modelled from the spec's description of `valid_moves`: for each of the
5 candidate offsets, the destination is valid iff in-bounds, not a mine
cell, and either empty or occupied by an opposing piece, kept in
direction-set order. -/
def validMovesSpec (pc : Piece) (b : Board) (mines : Mines) : List (ℤ × ℤ) :=
  (directions pc.color).filterMap (validSpecItem pc b mines)

/-- The color whose pieces move on a ply (`maximizing_player`). -/
def sideColor (p : Bool) : Color := if p then Color.blue else Color.red

/-- The boards at which `minimax` consults `evaluate`: depth-0 leaves of
non-decided lines (decided positions return an infinity instead). -/
def evalPositions (mines : Mines) : ℕ → Board → Bool → List Board
  | 0, b, _ =>
    match check_win_condition b with
    | some _ => []
    | none => [b]
  | d + 1, b, p =>
    match check_win_condition b with
    | some _ => []
    | none =>
      ((piecesOf (sideColor p) b).map (fun pc =>
        ((get_valid_moves pc b mines).map (fun mv =>
          evalPositions mines d (applyMove b pc mv) (!p))).flatten)).flatten

/-- `b2` is reachable from `b` by exactly `n` legal half-moves, sides
alternating starting with `p`. -/
def ReachN (mines : Mines) : ℕ → Board → Bool → Board → Prop
  | 0, b, _, b2 => b2 = b
  | d + 1, b, p, b2 =>
    ∃ pc mv, pc ∈ piecesOf (sideColor p) b ∧ mv ∈ get_valid_moves pc b mines ∧
      ReachN mines d (applyMove b pc mv) (!p) b2

/-- The placement constraints `generate_mines` maintains: every mine is in
rows 1..ROWS-2 and columns 0..COLS-1, sits on an empty cell of the board,
and has no mine immediately to its right (hence no two mines in one row at
column distance 1). -/
def MinesOK (b : Board) (m : Mines) : Prop :=
  ∀ p ∈ m, (1 ≤ p.1 ∧ p.1 ≤ ROWS - 2) ∧ (0 ≤ p.2 ∧ p.2 ≤ COLS - 1) ∧
    boardGet b p.1 p.2 = none ∧ (p.1, p.2 + 1) ∉ m

/-! ### Concrete boards for counterexamples and witnesses -/

/-- A contrived board: a Red piece on row 0 at column 3, a Blue piece on
row ROWS-1 at column 0. -/
def exBoardC2 : Board :=
  [[none, none, none, some ⟨0, 3, Color.red⟩, none],
   [none, none, none, none, none],
   [none, none, none, none, none],
   [none, none, none, none, none],
   [none, none, none, none, none],
   [some ⟨5, 0, Color.blue⟩, none, none, none, none]]

/-- A board where Blue has exactly one piece with exactly one legal move:
Blue at (2,0), Red at (5,0), mines blocking (2,1) and (3,1). -/
def exBoardC3 : Board :=
  [[none, none, none, none, none],
   [none, none, none, none, none],
   [some ⟨2, 0, Color.blue⟩, none, none, none, none],
   [none, none, none, none, none],
   [none, none, none, none, none],
   [some ⟨5, 0, Color.red⟩, none, none, none, none]]

/-- The mines used with `exBoardC3`. -/
def exMinesC3 : Mines := {(2, 1), (3, 1)}

/-- Blue's only piece on `exBoardC3`. -/
def exPieceC3 : Piece := ⟨2, 0, Color.blue⟩

/-- A board with a single Blue piece one move from row ROWS-1 and a lone
far-away Red piece. -/
def exBoardC7 : Board :=
  [[none, none, none, none, none],
   [none, none, none, none, none],
   [none, none, none, none, none],
   [none, none, none, none, none],
   [none, none, some ⟨4, 2, Color.blue⟩, none, none],
   [none, none, none, none, none]]

/-- A board with no Blue pieces and one Red piece in the middle. -/
def exBoardC10 : Board :=
  [[none, none, none, none, none],
   [none, none, none, none, none],
   [none, none, none, none, none],
   [none, none, none, some ⟨3, 3, Color.red⟩, none],
   [none, none, none, none, none],
   [none, none, none, none, none]]

/-- A sample stream driving `generate_mines` to the set
{(1,0), (1,2), (2,0), (2,2)}. -/
def exSamplesC6 : List (ℕ × ℕ) := [(0, 0), (0, 2), (1, 0), (1, 2)]

/-- The mine set produced from `exSamplesC6`. -/
def exMinesC9 : Mines := {(2, 2), (2, 0), (1, 2), (1, 0)}

/-- A sample stream whose generated set is disjoint from `exMinesC9`. -/
def exSamplesC9 : List (ℕ × ℕ) := [(3, 0), (3, 2), (2, 1), (2, 3)]

/-- The mine set produced from `exSamplesC9`. -/
def exShuffledC9 : Mines := {(3, 3), (3, 1), (4, 2), (4, 0)}

/-! ## Helper lemmas -/

theorem plainMoveFoldMax_mono (v : Board → Score) (b : Board) (pc : Piece) :
    ∀ (mvs : List (ℤ × ℤ)) (acc : Score), acc ≤ plainMoveFoldMax v b pc mvs acc := by
  intro mvs
  induction mvs with
  | nil => intro acc; simp [plainMoveFoldMax]
  | cons mv rest ih =>
    intro acc
    exact le_trans (le_max_left _ _) (ih _)

theorem plainPieceFoldMax_mono (v : Board → Score) (b : Board) (mines : Mines) :
    ∀ (pcs : List Piece) (acc : Score), acc ≤ plainPieceFoldMax v b mines pcs acc := by
  intro pcs
  induction pcs with
  | nil => intro acc; simp [plainPieceFoldMax]
  | cons pc rest ih =>
    intro acc
    exact le_trans (plainMoveFoldMax_mono v b pc _ acc) (ih _)

theorem plainMoveFoldMin_mono (v : Board → Score) (b : Board) (pc : Piece) :
    ∀ (mvs : List (ℤ × ℤ)) (acc : Score), plainMoveFoldMin v b pc mvs acc ≤ acc := by
  intro mvs
  induction mvs with
  | nil => intro acc; simp [plainMoveFoldMin]
  | cons mv rest ih =>
    intro acc
    exact le_trans (ih _) (min_le_left _ _)

theorem plainPieceFoldMin_mono (v : Board → Score) (b : Board) (mines : Mines) :
    ∀ (pcs : List Piece) (acc : Score), plainPieceFoldMin v b mines pcs acc ≤ acc := by
  intro pcs
  induction pcs with
  | nil => intro acc; simp [plainPieceFoldMin]
  | cons pc rest ih =>
    intro acc
    exact le_trans (ih _) (plainMoveFoldMin_mono v b pc _ acc)

theorem plainMoveFoldMin_bot (v : Board → Score) (b : Board) (pc : Piece)
    (mvs : List (ℤ × ℤ)) : plainMoveFoldMin v b pc mvs ⊥ = ⊥ :=
  le_bot_iff.mp (plainMoveFoldMin_mono v b pc mvs ⊥)

theorem plainPieceFoldMin_bot (v : Board → Score) (b : Board) (mines : Mines)
    (pcs : List Piece) : plainPieceFoldMin v b mines pcs ⊥ = ⊥ :=
  le_bot_iff.mp (plainPieceFoldMin_mono v b mines pcs ⊥)

theorem maxMoveLoop_le (ev : Board → Score → Score → Score) (b : Board) (pc : Piece)
    (beta : Score) :
    ∀ (mvs : List (ℤ × ℤ)) (a m : Score), m ≤ (maxMoveLoop ev b pc beta mvs (a, m)).2 := by
  intro mvs
  induction mvs with
  | nil => intro a m; simp [maxMoveLoop]
  | cons mv rest ih =>
    intro a m
    simp only [maxMoveLoop]
    split
    · exact le_max_left _ _
    · exact le_trans (le_max_left _ _) (ih _ _)

theorem maxPieceLoop_le (ev : Board → Score → Score → Score) (b : Board)
    (mines : Mines) (beta : Score) :
    ∀ (pcs : List Piece) (st : Score × Score),
      st.2 ≤ (maxPieceLoop ev b mines beta pcs st).2 := by
  intro pcs
  induction pcs with
  | nil => intro st; simp [maxPieceLoop]
  | cons pc rest ih =>
    intro st
    exact le_trans (maxMoveLoop_le ev b pc beta _ st.1 st.2) (ih _)

theorem minMoveLoop_le (ev : Board → Score → Score → Score) (b : Board) (pc : Piece)
    (alpha : Score) :
    ∀ (mvs : List (ℤ × ℤ)) (be m : Score),
      (minMoveLoop ev b pc alpha mvs (be, m)).2 ≤ m := by
  intro mvs
  induction mvs with
  | nil => intro be m; simp [minMoveLoop]
  | cons mv rest ih =>
    intro be m
    simp only [minMoveLoop]
    split
    · exact min_le_left _ _
    · exact le_trans (ih _ _) (min_le_left _ _)

theorem minPieceLoop_le (ev : Board → Score → Score → Score) (b : Board)
    (mines : Mines) (alpha : Score) :
    ∀ (pcs : List Piece) (st : Score × Score),
      (minPieceLoop ev b mines alpha pcs st).2 ≤ st.2 := by
  intro pcs
  induction pcs with
  | nil => intro st; simp [minPieceLoop]
  | cons pc rest ih =>
    intro st
    exact le_trans (ih _) (minMoveLoop_le ev b pc alpha _ st.1 st.2)

theorem maxPieceLoop_nil_moves (ev : Board → Score → Score → Score) (b : Board)
    (mines : Mines) (beta : Score) (pcs : List Piece)
    (h : ∀ pc ∈ pcs, get_valid_moves pc b mines = []) (st : Score × Score) :
    maxPieceLoop ev b mines beta pcs st = st := by
  induction pcs generalizing st with
  | nil => simp [maxPieceLoop]
  | cons pc rest ih =>
    simp only [maxPieceLoop, h pc (List.mem_cons_self pc rest), maxMoveLoop]
    exact ih (fun q hq => h q (List.mem_cons_of_mem pc hq)) st

theorem minPieceLoop_nil_moves (ev : Board → Score → Score → Score) (b : Board)
    (mines : Mines) (alpha : Score) (pcs : List Piece)
    (h : ∀ pc ∈ pcs, get_valid_moves pc b mines = []) (st : Score × Score) :
    minPieceLoop ev b mines alpha pcs st = st := by
  induction pcs generalizing st with
  | nil => simp [minPieceLoop]
  | cons pc rest ih =>
    simp only [minPieceLoop, h pc (List.mem_cons_self pc rest), minMoveLoop]
    exact ih (fun q hq => h q (List.mem_cons_of_mem pc hq)) st

/-! ## Claim C8: leaf values of the search -/

/-- C8: whenever depth = 0 or check_win reports a result, minimax returns
-infinity on Red victory ("You won!"), +infinity on Blue victory
("You lost!"), and otherwise the static evaluation #Blue - #Red; moreover
the static evaluation depends only on the two piece counts, not on piece
positions. -/
theorem minimax_leaf_values :
    (∀ (mines : Mines) (d : ℕ) (b : Board) (alpha beta : Score) (p : Bool),
      d = 0 ∨ (check_win_condition b).isSome = true →
      minimax mines d b alpha beta p =
        (if check_win_condition b = some "You won!" then ⊥
         else if check_win_condition b = some "You lost!" then ⊤
         else iz ((countColor Color.blue b : ℤ) - (countColor Color.red b : ℤ)))) ∧
    (∀ b₁ b₂ : Board, countColor Color.red b₁ = countColor Color.red b₂ →
      countColor Color.blue b₁ = countColor Color.blue b₂ →
      evaluate b₁ = evaluate b₂) := by
  constructor
  · intro mines d b alpha beta p h
    cases d with
    | zero =>
      show leafScore b = _
      rw [leafScore]
      cases hw : check_win_condition b with
      | none => simp [hw, evaluate]
      | some msg => simp [hw, evaluate]
    | succ n =>
      rcases h with h0 | hs
      · exact absurd h0 (Nat.succ_ne_zero n)
      · cases hw : check_win_condition b with
        | none => rw [hw] at hs; simp at hs
        | some msg => simp [minimax, hw, evaluate]
  · intro b₁ b₂ h₁ h₂
    rw [evaluate, evaluate, h₁, h₂]

/-- C8 witness: the leaf-value theorem applied at depth 0 on the board
with a single Red piece. -/
theorem minimax_leaf_values_witness :
    minimax ∅ 0 exBoardC10 ⊥ ⊤ true = iz (0 - 1) := by
  have h := minimax_leaf_values.1 ∅ 0 exBoardC10 ⊥ ⊤ true (Or.inl rfl)
  rw [h]
  decide

/-! ## Claim C10: a stuck side scores as an immediate loss -/

/-- C10: at a non-terminal node with depth at least 1, if the side to move
has no pieces or no piece of it has a legal move, minimax returns
-infinity on a maximizing (Blue) ply and +infinity on a minimizing (Red)
ply. -/
theorem minimax_stuck_side :
    ∀ (mines : Mines) (d : ℕ) (b : Board) (alpha beta : Score),
      check_win_condition b = none →
      ((∀ pc ∈ piecesOf Color.blue b, get_valid_moves pc b mines = []) →
        minimax mines (d + 1) b alpha beta true = ⊥) ∧
      ((∀ pc ∈ piecesOf Color.red b, get_valid_moves pc b mines = []) →
        minimax mines (d + 1) b alpha beta false = ⊤) := by
  intro mines d b alpha beta hw
  constructor
  · intro h
    simp only [minimax, hw]
    rw [maxPieceLoop_nil_moves _ _ _ _ _ h]
    simp
  · intro h
    simp only [minimax, hw]
    rw [minPieceLoop_nil_moves _ _ _ _ _ h]
    simp

/-- C10 witness: on the board whose only piece is Red, a maximizing ply at
depth 1 returns -infinity. -/
theorem minimax_stuck_side_witness :
    minimax ∅ 1 exBoardC10 ⊥ ⊤ true = ⊥ :=
  (minimax_stuck_side ∅ 0 exBoardC10 ⊥ ⊤ (by decide)).1 (by decide)

/-! ## Claim C2: win-condition precedence -/

theorem checkWinAux_eq_findSome (b : Board) :
    ∀ cols : List ℤ,
      checkWinAux b cols = cols.findSome? (fun c =>
        if isColorAt b Color.red 0 c then some "You won!"
        else if isColorAt b Color.blue (ROWS - 1) c then some "You lost!"
        else none) := by
  intro cols
  induction cols with
  | nil => simp [checkWinAux]
  | cons c rest ih =>
    simp only [checkWinAux, List.findSome?_cons]
    split_ifs with h1 h2
    · simp [h1]
    · simp [h1, h2]
    · simp [h1, h2, ih]

/-- C2 counterexample: on `exBoardC2` a Red piece occupies row 0 (at
column 3) and a Blue piece simultaneously occupies row ROWS-1 (at column
0), yet check_win reports Blue's victory message "You lost!", not Red's
"You won!": the row-0 Red check does not take precedence on every call. -/
theorem check_win_counterexample :
    isColorAt exBoardC2 Color.red 0 3 = true ∧
    isColorAt exBoardC2 Color.blue (ROWS - 1) 0 = true ∧
    check_win_condition exBoardC2 = some "You lost!" := by
  decide

/-- C2 amended: check_win scans columns 0..COLS-1 in increasing order and
inside each column checks Red-at-row-0 before Blue-at-row-(ROWS-1); hence
it reports Red's victory whenever a Red piece occupies row 0 at some
column c and no Blue piece occupies row ROWS-1 at any column strictly
smaller than c (in particular when both sit in the same column). -/
theorem check_win_per_column_precedence :
    ∀ b : Board,
      check_win_condition b =
        ((List.range 5).map (fun n => (n : ℤ))).findSome? (fun c =>
          if isColorAt b Color.red 0 c then some "You won!"
          else if isColorAt b Color.blue (ROWS - 1) c then some "You lost!"
          else none) ∧
      (∀ c : ℤ, c ∈ (List.range 5).map (fun n => (n : ℤ)) →
        isColorAt b Color.red 0 c = true →
        (∀ c' : ℤ, 0 ≤ c' → c' < c → isColorAt b Color.blue (ROWS - 1) c' = false) →
        check_win_condition b = some "You won!") := by
  intro b
  constructor
  · exact checkWinAux_eq_findSome b _
  · intro c hc hred hblue
    have hl : (List.range 5).map (fun n => (n : ℤ)) = [0, 1, 2, 3, 4] := by decide
    rw [hl] at hc
    rw [check_win_condition, hl]
    simp only [List.mem_cons, List.mem_singleton, List.not_mem_nil, or_false] at hc
    rcases hc with rfl | rfl | rfl | rfl | rfl
    · simp [checkWinAux, hred]
    · have h0 := hblue 0 (by norm_num) (by norm_num)
      simp [checkWinAux, hred, h0]
    · have h0 := hblue 0 (by norm_num) (by norm_num)
      have h1 := hblue 1 (by norm_num) (by norm_num)
      simp [checkWinAux, hred, h0, h1]
    · have h0 := hblue 0 (by norm_num) (by norm_num)
      have h1 := hblue 1 (by norm_num) (by norm_num)
      have h2 := hblue 2 (by norm_num) (by norm_num)
      simp [checkWinAux, hred, h0, h1, h2]
    · have h0 := hblue 0 (by norm_num) (by norm_num)
      have h1 := hblue 1 (by norm_num) (by norm_num)
      have h2 := hblue 2 (by norm_num) (by norm_num)
      have h3 := hblue 3 (by norm_num) (by norm_num)
      simp [checkWinAux, hred, h0, h1, h2, h3]

/-- C2 amended witness: the per-column precedence theorem applied to a
board whose row 0 holds a Red piece at column 0 while row ROWS-1 holds a
Blue piece at the same column 0. -/
theorem check_win_per_column_precedence_witness :
    check_win_condition
      [[some ⟨0, 0, Color.red⟩, none, none, none, none],
       [none, none, none, none, none], [none, none, none, none, none],
       [none, none, none, none, none], [none, none, none, none, none],
       [some ⟨5, 0, Color.blue⟩, none, none, none, none]] = some "You won!" :=
  (check_win_per_column_precedence _).2 0 (by decide) (by decide)
    (fun c' h1 h2 => absurd (lt_of_le_of_lt h1 h2) (lt_irrefl 0))

/-! ## Claim C5: the move generator -/

theorem foldl_validStep_eq (pc : Piece) (b : Board) (mines : Mines) :
    ∀ (ds : List (ℤ × ℤ)) (acc : List (ℤ × ℤ)),
      ds.foldl (validStep pc b mines) acc =
        acc ++ ds.filterMap (validSpecItem pc b mines) := by
  intro ds
  induction ds with
  | nil => intro acc; simp
  | cons d rest ih =>
    intro acc
    simp only [List.foldl_cons, List.filterMap_cons]
    by_cases hc : 0 ≤ pc.row + d.1 ∧ pc.row + d.1 < ROWS ∧ 0 ≤ pc.col + d.2 ∧
        pc.col + d.2 < COLS ∧ (pc.row + d.1, pc.col + d.2) ∉ mines
    · obtain ⟨h1, h2, h3, h4, h5⟩ := hc
      cases hcell : boardGet b (pc.row + d.1) (pc.col + d.2) with
      | none =>
        simp [validStep, validSpecItem, h1, h2, h3, h4, h5, hcell, ih]
      | some q =>
        by_cases hq : q.color = pc.color
        · simp [validStep, validSpecItem, h1, h2, h3, h4, h5, hcell, hq, ih]
        · simp [validStep, validSpecItem, h1, h2, h3, h4, h5, hcell, hq, ih]
    · have hns : ¬((0 ≤ pc.row + d.1 ∧ pc.row + d.1 < ROWS ∧ 0 ≤ pc.col + d.2 ∧
          pc.col + d.2 < COLS) ∧ (pc.row + d.1, pc.col + d.2) ∉ mines ∧
          (boardGet b (pc.row + d.1) (pc.col + d.2)).all
            (fun q => decide (q.color ≠ pc.color)) = true) := by
        intro h
        exact hc ⟨h.1.1, h.1.2.1, h.1.2.2.1, h.1.2.2.2, h.2.1⟩
      simp only [validStep, validSpecItem, if_neg hc, if_neg hns]
      exact ih acc

/-- C5: `valid_moves` returns exactly the destinations among the 5
side-dependent offsets that are in bounds, not a mine cell, and empty or
held by an opposing piece, in direction-set order; in particular no
returned destination is out of bounds, a mine cell, or held by a
same-side piece. -/
theorem get_valid_moves_correct :
    ∀ (pc : Piece) (b : Board) (mines : Mines),
      get_valid_moves pc b mines = validMovesSpec pc b mines ∧
      ∀ rc ∈ get_valid_moves pc b mines,
        (0 ≤ rc.1 ∧ rc.1 < ROWS ∧ 0 ≤ rc.2 ∧ rc.2 < COLS) ∧ rc ∉ mines ∧
        ∀ q, boardGet b rc.1 rc.2 = some q → q.color ≠ pc.color := by
  intro pc b mines
  have heq : get_valid_moves pc b mines = validMovesSpec pc b mines := by
    rw [get_valid_moves, validMovesSpec, foldl_validStep_eq]
    simp
  refine ⟨heq, ?_⟩
  intro rc hrc
  rw [heq, validMovesSpec] at hrc
  obtain ⟨d, hd, hitem⟩ := List.mem_filterMap.mp hrc
  rw [validSpecItem] at hitem
  split_ifs at hitem with hcond
  cases hitem
  refine ⟨hcond.1, hcond.2.1, ?_⟩
  intro q hq
  have := hcond.2.2
  rw [hq] at this
  simpa using this

/-- C5 witness: the characterization applied to the Blue corner piece of
the initial board: its destination (1, 0) is in bounds, unmined, and not
on a same-side piece. -/
theorem get_valid_moves_correct_witness :
    (1, 0) ∈ get_valid_moves ⟨0, 0, Color.blue⟩ create_board ∅ ∧
    ((0 ≤ (1 : ℤ) ∧ (1 : ℤ) < ROWS ∧ 0 ≤ (0 : ℤ) ∧ (0 : ℤ) < COLS) ∧
      ((1 : ℤ), (0 : ℤ)) ∉ (∅ : Mines) ∧
      ∀ q, boardGet create_board 1 0 = some q → q.color ≠ Color.blue) :=
  ⟨by decide, (get_valid_moves_correct ⟨0, 0, Color.blue⟩ create_board ∅).2
    (1, 0) (by decide)⟩

/-! ## Claim C6: mine generation invariants -/

theorem genMinesAux_spec (b : Board) (numMines : ℕ) :
    ∀ (samples : List (ℕ × ℕ)) (m0 m : Mines),
      MinesOK b m0 → m0.card ≤ numMines →
      genMinesAux b numMines samples m0 = some m →
      m.card = numMines ∧ MinesOK b m := by
  intro samples
  induction samples with
  | nil =>
    intro m0 m h0 hc hgen
    rw [genMinesAux] at hgen
    split_ifs at hgen with h
    cases hgen
    exact ⟨le_antisymm hc h, h0⟩
  | cons s rest ih =>
    intro m0 m h0 hc hgen
    simp only [genMinesAux] at hgen
    split_ifs at hgen with h1 h2
    · cases hgen
      exact ⟨le_antisymm hc h1, h0⟩
    · -- the candidate is accepted and inserted
      obtain ⟨hcell, hleft, hright⟩ := h2
      have hrow1 : (1 : ℤ) ≤ mineRow s.1 := by
        rw [mineRow]; omega
      have hrow2 : mineRow s.1 ≤ ROWS - 2 := by
        rw [mineRow, ROWS]
        have : s.1 % 4 < 4 := Nat.mod_lt _ (by norm_num)
        omega
      have hcol1 : (0 : ℤ) ≤ mineCol s.2 := by
        rw [mineCol]; omega
      have hcol2 : mineCol s.2 ≤ COLS - 1 := by
        rw [mineCol, COLS]
        have : s.2 % 5 < 5 := Nat.mod_lt _ (by norm_num)
        omega
      have hOK : MinesOK b (insert (mineRow s.1, mineCol s.2) m0) := by
        intro p hp
        rcases Finset.mem_insert.mp hp with hpq | hpm
        · subst hpq
          refine ⟨⟨hrow1, hrow2⟩, ⟨hcol1, hcol2⟩, hcell, ?_⟩
          intro hmem
          rcases Finset.mem_insert.mp hmem with habs | hmem0
          · have : mineCol s.2 + 1 = mineCol s.2 := congrArg Prod.snd habs
            omega
          · exact hright hmem0
        · obtain ⟨hb1, hb2, hb3, hb4⟩ := h0 p hpm
          refine ⟨hb1, hb2, hb3, ?_⟩
          intro hmem
          rcases Finset.mem_insert.mp hmem with habs | hmem0
          · apply hleft
            have h1 : p.1 = mineRow s.1 := congrArg Prod.fst habs
            have h2 : p.2 + 1 = mineCol s.2 := congrArg Prod.snd habs
            have hpp : p = (mineRow s.1, mineCol s.2 - 1) := by
              apply Prod.ext
              · exact h1
              · omega
            rw [← hpp]
            exact hpm
          · exact hb4 hmem0
      have hcard : (insert (mineRow s.1, mineCol s.2) m0).card ≤ numMines := by
        have := Finset.card_insert_le (mineRow s.1, mineCol s.2) m0
        omega
      exact ih _ m hOK hcard hgen
    · exact ih m0 m h0 hc hgen

theorem generate_mines_sound (b : Board) (count : ℕ)
    (samples : List (ℕ × ℕ)) (m : Mines)
    (h : generate_mines b count samples = some m) :
    m.card = count ∧ MinesOK b m := by
  refine genMinesAux_spec b count samples ∅ m ?_ ?_ h
  · intro p hp
    exact absurd hp (Finset.not_mem_empty p)
  · simp

/-- C6: whenever generate_mines returns, it returns a set of exactly
`count` distinct coordinates, each in rows 1..ROWS-2 and columns
0..COLS-1, each on an empty cell of the board, with no two mines in the
same row at column distance 1. -/
theorem generate_mines_spec :
    ∀ (b : Board) (count : ℕ) (samples : List (ℕ × ℕ)) (m : Mines),
      generate_mines b count samples = some m →
      m.card = count ∧ MinesOK b m := by
  intro b count samples m h
  exact generate_mines_sound b count samples m h

/-- C6 witness: a concrete run of generate_mines on the initial board
returns four mines satisfying every placement constraint. -/
theorem generate_mines_spec_witness :
    exMinesC9.card = 4 ∧ MinesOK create_board exMinesC9 :=
  generate_mines_spec create_board 4 exSamplesC6 exMinesC9 rfl

/-! ## Claim C9: reshuffling yields a disjoint valid mine set -/

/-- C9: whenever shuffle_mines returns, its result shares no coordinate
with the input mine set and satisfies every generate_mines placement
constraint (4 distinct mines, rows 1..ROWS-2, empty cells, no same-row
adjacency). -/
theorem shuffle_mines_spec :
    ∀ (b : Board) (mines : Mines) (attempts : List (List (ℕ × ℕ))) (m : Mines),
      shuffle_mines b mines attempts = some m →
      (∀ p ∈ m, p ∉ mines) ∧ m.card = 4 ∧ MinesOK b m := by
  intro b mines attempts
  induction attempts with
  | nil =>
    intro m h
    rw [shuffle_mines] at h
    cases h
  | cons s rest ih =>
    intro m h
    rw [shuffle_mines] at h
    cases hg : generate_mines b 4 s with
    | none => rw [hg] at h; cases h
    | some nm =>
      rw [hg] at h
      dsimp only at h
      split_ifs at h with hov
      · exact ih m h
      · cases h
        have hgen := generate_mines_sound b 4 s m hg
        refine ⟨?_, hgen.1, hgen.2⟩
        intro p hp hpm
        apply hov
        have hmem : p ∈ m ∩ mines := Finset.mem_inter.mpr ⟨hp, hpm⟩
        exact Finset.card_pos.mpr ⟨p, hmem⟩

/-- C9 witness: a concrete reshuffle on the initial board returns a set
disjoint from the previous mines and satisfying the placement
constraints. -/
theorem shuffle_mines_spec_witness :
    (∀ p ∈ exShuffledC9, p ∉ exMinesC9) ∧ exShuffledC9.card = 4 ∧
      MinesOK create_board exShuffledC9 :=
  shuffle_mines_spec create_board exMinesC9 [exSamplesC9] exShuffledC9 rfl

/-! ## Claim C7: the pre-search winning-move shortcut -/

theorem mem_candidatePairs (b : Board) (mines : Mines) (pm : Piece × (ℤ × ℤ)) :
    pm ∈ candidatePairs b mines ↔
      pm.1 ∈ piecesOf Color.blue b ∧ pm.2 ∈ get_valid_moves pm.1 b mines := by
  rw [candidatePairs]
  simp only [List.mem_flatten, List.mem_map]
  constructor
  · rintro ⟨l, ⟨pc, hpc, rfl⟩, hpm⟩
    obtain ⟨mv, hmv, rfl⟩ := List.mem_map.mp hpm
    exact ⟨hpc, hmv⟩
  · rintro ⟨h1, h2⟩
    refine ⟨(get_valid_moves pm.1 b mines).map (fun mv => (pm.1, mv)),
      ⟨pm.1, h1, rfl⟩, ?_⟩
    simp only [List.mem_map]
    exact ⟨pm.2, h2, rfl⟩

/-- C7: find_winning_move returns a pair whose destination is a legal
move landing on row ROWS-1 whenever at least one Blue piece has one, and
returns None exactly when no Blue piece has a legal move onto row
ROWS-1. -/
theorem find_winning_move_correct :
    ∀ (b : Board) (mines : Mines),
      (find_winning_move b mines = none ↔
        ∀ pm ∈ candidatePairs b mines, pm.2.1 ≠ ROWS - 1) ∧
      (∀ pm, find_winning_move b mines = some pm →
        pm.1 ∈ piecesOf Color.blue b ∧ pm.2 ∈ get_valid_moves pm.1 b mines ∧
          pm.2.1 = ROWS - 1) ∧
      ((∃ pm ∈ candidatePairs b mines, pm.2.1 = ROWS - 1) →
        (find_winning_move b mines).isSome = true) := by
  intro b mines
  refine ⟨?_, ?_, ?_⟩
  · rw [find_winning_move, List.find?_eq_none]
    simp
  · intro pm h
    have hp := List.find?_some h
    have hm := List.mem_of_find?_eq_some h
    rw [mem_candidatePairs] at hm
    simp only [decide_eq_true_eq] at hp
    exact ⟨hm.1, hm.2, hp⟩
  · rintro ⟨pm, hpm, hrow⟩
    rw [find_winning_move, List.find?_isSome]
    exact ⟨pm, hpm, by simp [hrow]⟩

/-- C7 witness: on a board with a single Blue piece one move from row
ROWS-1 and nothing blocking it, find_winning_move returns exactly that
move, and the returned pair is a legal move onto row ROWS-1. -/
theorem find_winning_move_correct_witness :
    find_winning_move exBoardC7 ∅ = some (⟨4, 2, Color.blue⟩, (5, 2)) ∧
    ((⟨4, 2, Color.blue⟩ : Piece) ∈ piecesOf Color.blue exBoardC7 ∧
      ((5 : ℤ), (2 : ℤ)) ∈ get_valid_moves ⟨4, 2, Color.blue⟩ exBoardC7 ∅ ∧
      ((5 : ℤ), (2 : ℤ)).1 = ROWS - 1) :=
  ⟨by decide, (find_winning_move_correct exBoardC7 ∅).2.1
    (⟨4, 2, Color.blue⟩, (5, 2)) (by decide)⟩

/-! ## Claim C4: best_move returns a uniformly drawn maximal candidate -/

theorem le_foldl_max : ∀ (l : List Score) (a : Score), a ≤ l.foldl max a := by
  intro l
  induction l with
  | nil => intro a; simp
  | cons x t ih => intro a; exact le_trans (le_max_left a x) (ih _)

theorem foldl_max_le_of_mem :
    ∀ (l : List Score) (a x : Score), x ∈ l → x ≤ l.foldl max a := by
  intro l
  induction l with
  | nil => intro a x hx; simp at hx
  | cons y t ih =>
    intro a x hx
    rcases List.mem_cons.mp hx with rfl | hx'
    · exact le_trans (le_max_right a x) (le_foldl_max t _)
    · exact ih _ x hx'

theorem foldl_max_mem : ∀ (l : List Score) (a : Score), l.foldl max a ∈ a :: l := by
  intro l
  induction l with
  | nil => intro a; simp
  | cons x t ih =>
    intro a
    have h := ih (max a x)
    rcases List.mem_cons.mp h with h1 | h1
    · rcases max_choice a x with hc | hc
      · rw [List.foldl_cons, h1, hc]
        exact List.mem_cons_self a (x :: t)
      · rw [List.foldl_cons, h1, hc]
        exact List.mem_cons_of_mem a (List.mem_cons_self x t)
    · rw [List.foldl_cons]
      exact List.mem_cons_of_mem a (List.mem_cons_of_mem x h1)

theorem bestFold_eq (score : Piece × (ℤ × ℤ) → Score) :
    ∀ (xs pref : List (Piece × (ℤ × ℤ))),
      bestFold score xs ((pref.map score).foldl max ⊥,
        pref.filter (fun y => decide (score y = (pref.map score).foldl max ⊥))) =
      (((pref ++ xs).map score).foldl max ⊥,
        (pref ++ xs).filter
          (fun y => decide (score y = ((pref ++ xs).map score).foldl max ⊥))) := by
  intro xs
  induction xs with
  | nil => intro pref; simp [bestFold]
  | cons x rest ih =>
    intro pref
    have hfold : ((pref ++ [x]).map score).foldl max ⊥ =
        max ((pref.map score).foldl max ⊥) (score x) := by
      simp [List.foldl_append]
    have happ : (pref ++ [x]) ++ rest = pref ++ x :: rest := by simp
    rcases lt_trichotomy ((pref.map score).foldl max ⊥) (score x) with hlt | heq | hgt
    · -- a strictly better candidate: restart the list with [x]
      have hmax : ((pref ++ [x]).map score).foldl max ⊥ = score x := by
        rw [hfold]; exact max_eq_right hlt.le
      have hfilt : (pref ++ [x]).filter
          (fun y => decide (score y = ((pref ++ [x]).map score).foldl max ⊥)) = [x] := by
        rw [hmax, List.filter_append]
        have h1 : pref.filter (fun y => decide (score y = score x)) = [] := by
          rw [List.filter_eq_nil_iff]
          intro a ha
          simp only [decide_eq_true_eq]
          intro hax
          have hle := foldl_max_le_of_mem (pref.map score) ⊥ (score a)
            (List.mem_map_of_mem score ha)
          rw [hax] at hle
          exact absurd hlt (not_lt.mpr hle)
        rw [h1]
        simp
      have hstep : bestFold score (x :: rest)
          ((pref.map score).foldl max ⊥,
            pref.filter (fun y => decide (score y = (pref.map score).foldl max ⊥))) =
          bestFold score rest (score x, [x]) := by
        simp only [bestFold]
        rw [if_pos hlt]
      rw [hstep]
      have ih' := ih (pref ++ [x])
      rw [hfilt, hmax] at ih'
      rw [ih', happ]
    · -- an equal candidate: append it
      have hmax : ((pref ++ [x]).map score).foldl max ⊥ =
          (pref.map score).foldl max ⊥ := by
        rw [hfold, ← heq, max_self]
      have hfilt : (pref ++ [x]).filter
          (fun y => decide (score y = ((pref ++ [x]).map score).foldl max ⊥)) =
          pref.filter (fun y => decide (score y = (pref.map score).foldl max ⊥))
            ++ [x] := by
        rw [hmax, List.filter_append]
        congr 1
        simp [heq.symm]
      have hstep : bestFold score (x :: rest)
          ((pref.map score).foldl max ⊥,
            pref.filter (fun y => decide (score y = (pref.map score).foldl max ⊥))) =
          bestFold score rest ((pref.map score).foldl max ⊥,
            pref.filter (fun y => decide (score y = (pref.map score).foldl max ⊥))
              ++ [x]) := by
        simp only [bestFold]
        rw [if_neg (not_lt.mpr heq.ge), if_pos heq.symm]
      rw [hstep]
      have ih' := ih (pref ++ [x])
      rw [hfilt, hmax] at ih'
      rw [ih', happ]
    · -- a strictly worse candidate: ignore it
      have hmax : ((pref ++ [x]).map score).foldl max ⊥ =
          (pref.map score).foldl max ⊥ := by
        rw [hfold]; exact max_eq_left hgt.le
      have hfilt : (pref ++ [x]).filter
          (fun y => decide (score y = ((pref ++ [x]).map score).foldl max ⊥)) =
          pref.filter (fun y => decide (score y = (pref.map score).foldl max ⊥)) := by
        rw [hmax, List.filter_append]
        have h1 : [x].filter
            (fun y => decide (score y = (pref.map score).foldl max ⊥)) = [] := by
          rw [List.filter_eq_nil_iff]
          intro a ha
          rw [List.mem_singleton] at ha
          subst ha
          simp only [decide_eq_true_eq]
          exact ne_of_lt hgt
        rw [h1, List.append_nil]
      have hstep : bestFold score (x :: rest)
          ((pref.map score).foldl max ⊥,
            pref.filter (fun y => decide (score y = (pref.map score).foldl max ⊥))) =
          bestFold score rest ((pref.map score).foldl max ⊥,
            pref.filter (fun y => decide (score y = (pref.map score).foldl max ⊥))) := by
        simp only [bestFold]
        rw [if_neg (not_lt.mpr hgt.le), if_neg (ne_of_lt hgt)]
      rw [hstep]
      have ih' := ih (pref ++ [x])
      rw [hfilt, hmax] at ih'
      rw [ih', happ]

theorem bestCandidates_eq (b : Board) (mines : Mines) :
    bestCandidates b mines = (candidatePairs b mines).filter
      (fun pm => decide (candScore b mines pm = maxCandScore b mines)) := by
  have h := bestFold_eq (candScore b mines) (candidatePairs b mines) []
  simp only [List.map_nil, List.foldl_nil, List.filter_nil, List.nil_append] at h
  rw [bestCandidates, h, maxCandScore]

theorem candidatePairs_eq_nil (b : Board) (mines : Mines) :
    candidatePairs b mines = [] ↔
      ∀ pc ∈ piecesOf Color.blue b, get_valid_moves pc b mines = [] := by
  rw [candidatePairs]
  simp [List.flatten_eq_nil_iff]

theorem bestCandidates_nil (b : Board) (mines : Mines) :
    bestCandidates b mines = [] ↔ candidatePairs b mines = [] := by
  constructor
  · intro h
    by_contra hne
    have hmem := foldl_max_mem ((candidatePairs b mines).map (candScore b mines)) ⊥
    rcases List.mem_cons.mp hmem with hbot | hmem'
    · -- the maximum is bottom: the first pair still achieves it
      obtain ⟨pm, hpm⟩ := List.exists_mem_of_ne_nil _ hne
      have hle := foldl_max_le_of_mem ((candidatePairs b mines).map (candScore b mines))
        ⊥ (candScore b mines pm) (List.mem_map_of_mem _ hpm)
      have hsc : candScore b mines pm = maxCandScore b mines := by
        rw [maxCandScore]
        exact le_antisymm hle (by rw [hbot]; exact bot_le)
      have : pm ∈ bestCandidates b mines := by
        rw [bestCandidates_eq, List.mem_filter]
        exact ⟨hpm, by simpa using hsc⟩
      rw [h] at this
      simp at this
    · obtain ⟨pm, hpm, hsc⟩ := List.mem_map.mp hmem'
      have : pm ∈ bestCandidates b mines := by
        rw [bestCandidates_eq, List.mem_filter]
        refine ⟨hpm, ?_⟩
        simp only [decide_eq_true_eq]
        rw [maxCandScore, hsc]
      rw [h] at this
      simp at this
  · intro h
    rw [bestCandidates_eq, h]
    simp

/-- C4: best_move returns None exactly when Blue has no legal move at
all; otherwise, under every random draw it returns a member of the set of
candidate pairs achieving the maximal depth-3 full-window score, that set
is exactly what `best_moves` accumulates, and every maximal pair is
returned under some draw. -/
theorem best_move_correct :
    ∀ (b : Board) (mines : Mines),
      bestCandidates b mines = (candidatePairs b mines).filter
        (fun pm => decide (candScore b mines pm = maxCandScore b mines)) ∧
      (∀ k, best_move b mines k = none ↔
        ∀ pc ∈ piecesOf Color.blue b, get_valid_moves pc b mines = []) ∧
      (∀ k pm, best_move b mines k = some pm → pm ∈ bestCandidates b mines) ∧
      (∀ pm ∈ bestCandidates b mines, ∃ k, best_move b mines k = some pm) := by
  intro b mines
  refine ⟨bestCandidates_eq b mines, ?_, ?_, ?_⟩
  · intro k
    rw [best_move, ← candidatePairs_eq_nil, ← bestCandidates_nil]
    constructor
    · intro h
      by_contra hne
      rw [if_neg (by simpa using hne)] at h
      cases h
    · intro h
      rw [if_pos (by simpa using h)]
  · intro k pm h
    rw [best_move] at h
    split_ifs at h with he
    cases h
    have hne : bestCandidates b mines ≠ [] := by simpa using he
    have hlt : k % (bestCandidates b mines).length <
        (bestCandidates b mines).length :=
      Nat.mod_lt _ (List.length_pos.mpr hne)
    rw [List.getD_eq_getElem _ _ hlt]
    exact List.getElem_mem hlt
  · intro pm hpm
    obtain ⟨i, hi, hget⟩ := List.mem_iff_getElem.mp hpm
    refine ⟨i, ?_⟩
    rw [best_move]
    have hne : ¬(bestCandidates b mines).isEmpty = true := by
      intro habs
      rw [List.isEmpty_iff] at habs
      rw [habs] at hpm
      simp at hpm
    rw [if_neg hne, Nat.mod_eq_of_lt hi, List.getD_eq_getElem _ _ hi, hget]

/-- C4 witness: on the single-candidate board, best_move under draw 0
returns the unique pair, and that pair is a maximal candidate. -/
theorem best_move_correct_witness :
    best_move exBoardC3 exMinesC3 0 = some (exPieceC3, (3, 0)) ∧
    (exPieceC3, (3, 0)) ∈ bestCandidates exBoardC3 exMinesC3 :=
  ⟨by decide, (best_move_correct exBoardC3 exMinesC3).2.2.1 0 (exPieceC3, (3, 0))
    (by decide)⟩

/-! ## Claim C1: the piece-local pruning never changes the root value

The proof layers the depth-3 call:
* depth-1 minimizing nodes: children are depth-0 leaves, whose value
  ignores the window, so the node returns at least the plain value, and
  exactly the plain value whenever its result stays above alpha;
* depth-2 maximizing nodes are always entered with alpha = bottom, so the
  running alpha coincides with the running max_eval; below beta the run
  reproduces the plain fold, and when it crosses beta the first crossing
  child is evaluated on an open window and is exact, so the plain value
  also reaches beta;
* the root minimizing node runs with alpha = bottom and beta = top, so its
  running beta coincides with its running min_eval, each child is called
  on the window (bottom, m): below m children are exact, at or above m the
  plain child value also stays at or above m, and once m hits bottom both
  folds are absorbed. -/

theorem minimax_unfold_some (mines : Mines) (d : ℕ) (b : Board)
    (alpha beta : Score) (maxing : Bool) (msg : String)
    (hw : check_win_condition b = some msg) :
    minimax mines (d + 1) b alpha beta maxing =
      (if msg = "You won!" then ⊥ else if msg = "You lost!" then ⊤
       else iz (evaluate b)) := by
  simp only [minimax, hw]

theorem plainMinimax_unfold_some (mines : Mines) (d : ℕ) (b : Board)
    (maxing : Bool) (msg : String) (hw : check_win_condition b = some msg) :
    plainMinimax mines (d + 1) b maxing =
      (if msg = "You won!" then ⊥ else if msg = "You lost!" then ⊤
       else iz (evaluate b)) := by
  simp only [plainMinimax, hw]

theorem minimax_unfold_max (mines : Mines) (d : ℕ) (b : Board)
    (alpha beta : Score) (hw : check_win_condition b = none) :
    minimax mines (d + 1) b alpha beta true =
      (maxPieceLoop (fun c a be => minimax mines d c a be false) b mines beta
        (piecesOf Color.blue b) (alpha, ⊥)).2 := by
  simp only [minimax, hw, if_true, Bool.false_eq_true, if_false]

theorem minimax_unfold_min (mines : Mines) (d : ℕ) (b : Board)
    (alpha beta : Score) (hw : check_win_condition b = none) :
    minimax mines (d + 1) b alpha beta false =
      (minPieceLoop (fun c a be => minimax mines d c a be true) b mines alpha
        (piecesOf Color.red b) (beta, ⊤)).2 := by
  simp only [minimax, hw, if_true, Bool.false_eq_true, if_false]

theorem plainMinimax_unfold_max (mines : Mines) (d : ℕ) (b : Board)
    (hw : check_win_condition b = none) :
    plainMinimax mines (d + 1) b true =
      plainPieceFoldMax (fun c => plainMinimax mines d c false) b mines
        (piecesOf Color.blue b) ⊥ := by
  simp only [plainMinimax, hw, if_true, Bool.false_eq_true, if_false]

theorem plainMinimax_unfold_min (mines : Mines) (d : ℕ) (b : Board)
    (hw : check_win_condition b = none) :
    plainMinimax mines (d + 1) b false =
      plainPieceFoldMin (fun c => plainMinimax mines d c true) b mines
        (piecesOf Color.red b) ⊤ := by
  simp only [plainMinimax, hw, if_true, Bool.false_eq_true, if_false]

/-! ### Depth-1 minimizing nodes: window-independent children -/

theorem minMoveLoop_ge_plain (ev : Board → Score → Score → Score)
    (v : Board → Score) (b : Board) (hex : ∀ c a be, ev c a be = v c)
    (pc : Piece) :
    ∀ (mvs : List (ℤ × ℤ)) (alpha beta m p : Score), p ≤ m →
      plainMoveFoldMin v b pc mvs p ≤ (minMoveLoop ev b pc alpha mvs (beta, m)).2 := by
  intro mvs
  induction mvs with
  | nil =>
    intro alpha beta m p h
    simpa [minMoveLoop, plainMoveFoldMin] using h
  | cons mv rest ih =>
    intro alpha beta m p h
    simp only [minMoveLoop, plainMoveFoldMin, hex]
    split
    · exact le_trans (plainMoveFoldMin_mono v b pc rest _)
        (min_le_min h (le_refl _))
    · exact ih _ _ _ _ (min_le_min h (le_refl _))

theorem minPieceLoop_ge_plain (ev : Board → Score → Score → Score)
    (v : Board → Score) (b : Board) (mines : Mines)
    (hex : ∀ c a be, ev c a be = v c) :
    ∀ (pcs : List Piece) (alpha beta m p : Score), p ≤ m →
      plainPieceFoldMin v b mines pcs p ≤
        (minPieceLoop ev b mines alpha pcs (beta, m)).2 := by
  intro pcs
  induction pcs with
  | nil =>
    intro alpha beta m p h
    simpa [minPieceLoop, plainPieceFoldMin] using h
  | cons pc rest ih =>
    intro alpha beta m p h
    simp only [minPieceLoop, plainPieceFoldMin]
    have h1 := minMoveLoop_ge_plain ev v b hex pc (get_valid_moves pc b mines)
      alpha beta m p h
    exact ih _ (minMoveLoop ev b pc alpha (get_valid_moves pc b mines) (beta, m)).1
      (minMoveLoop ev b pc alpha (get_valid_moves pc b mines) (beta, m)).2 _ h1

theorem minMoveLoop_exact (ev : Board → Score → Score → Score)
    (v : Board → Score) (b : Board) (hex : ∀ c a be, ev c a be = v c)
    (pc : Piece) :
    ∀ (mvs : List (ℤ × ℤ)) (alpha beta0 m : Score), alpha < beta0 →
      alpha < (minMoveLoop ev b pc alpha mvs (min beta0 m, m)).2 →
      (minMoveLoop ev b pc alpha mvs (min beta0 m, m)).2 =
          plainMoveFoldMin v b pc mvs m ∧
        (minMoveLoop ev b pc alpha mvs (min beta0 m, m)).1 =
          min beta0 (minMoveLoop ev b pc alpha mvs (min beta0 m, m)).2 := by
  intro mvs
  induction mvs with
  | nil =>
    intro alpha beta0 m hab hres
    simp [minMoveLoop, plainMoveFoldMin]
  | cons mv rest ih =>
    intro alpha beta0 m hab hres
    simp only [minMoveLoop, plainMoveFoldMin, hex] at hres ⊢
    rw [min_assoc] at hres ⊢
    split_ifs at hres ⊢ with hcut
    · exfalso
      have h2 : alpha < min m (v (applyMove b pc mv)) := by simpa using hres
      exact absurd hcut (not_le.mpr (lt_min hab h2))
    · exact ih alpha beta0 (min m (v (applyMove b pc mv))) hab hres

theorem minPieceLoop_exact (ev : Board → Score → Score → Score)
    (v : Board → Score) (b : Board) (mines : Mines)
    (hex : ∀ c a be, ev c a be = v c) :
    ∀ (pcs : List Piece) (alpha beta0 m : Score), alpha < beta0 →
      alpha < (minPieceLoop ev b mines alpha pcs (min beta0 m, m)).2 →
      (minPieceLoop ev b mines alpha pcs (min beta0 m, m)).2 =
          plainPieceFoldMin v b mines pcs m ∧
        (minPieceLoop ev b mines alpha pcs (min beta0 m, m)).1 =
          min beta0 (minPieceLoop ev b mines alpha pcs (min beta0 m, m)).2 := by
  intro pcs
  induction pcs with
  | nil =>
    intro alpha beta0 m hab hres
    simp [minPieceLoop, plainPieceFoldMin]
  | cons pc rest ih =>
    intro alpha beta0 m hab hres
    simp only [minPieceLoop, plainPieceFoldMin] at hres ⊢
    have hmono := minPieceLoop_le ev b mines alpha rest
      (minMoveLoop ev b pc alpha (get_valid_moves pc b mines) (min beta0 m, m))
    have h2 : alpha <
        (minMoveLoop ev b pc alpha (get_valid_moves pc b mines) (min beta0 m, m)).2 :=
      lt_of_lt_of_le hres hmono
    have hmv := minMoveLoop_exact ev v b hex pc (get_valid_moves pc b mines)
      alpha beta0 m hab h2
    have hst : minMoveLoop ev b pc alpha (get_valid_moves pc b mines) (min beta0 m, m) =
        (min beta0
          (minMoveLoop ev b pc alpha (get_valid_moves pc b mines) (min beta0 m, m)).2,
         (minMoveLoop ev b pc alpha (get_valid_moves pc b mines) (min beta0 m, m)).2) :=
      Prod.ext hmv.2 rfl
    rw [hst] at hres ⊢
    rw [← hmv.1]
    exact ih alpha beta0
      (minMoveLoop ev b pc alpha (get_valid_moves pc b mines) (min beta0 m, m)).2
      hab hres

theorem minimax_one_ge (mines : Mines) :
    ∀ (c : Board) (a be : Score),
      plainMinimax mines 1 c false ≤ minimax mines 1 c a be false := by
  intro c a be
  cases hw : check_win_condition c with
  | some msg =>
    rw [minimax_unfold_some mines 0 c a be false msg hw,
      plainMinimax_unfold_some mines 0 c false msg hw]
  | none =>
    rw [minimax_unfold_min mines 0 c a be hw, plainMinimax_unfold_min mines 0 c hw]
    exact minPieceLoop_ge_plain (fun c' a' be' => minimax mines 0 c' a' be' true)
      (fun c' => plainMinimax mines 0 c' true) c mines (fun _ _ _ => rfl)
      (piecesOf Color.red c) a be ⊤ ⊤ (le_refl _)

theorem minimax_one_exact (mines : Mines) :
    ∀ (c : Board) (a be : Score), a < be →
      a < minimax mines 1 c a be false →
      minimax mines 1 c a be false = plainMinimax mines 1 c false := by
  intro c a be hab h
  cases hw : check_win_condition c with
  | some msg =>
    rw [minimax_unfold_some mines 0 c a be false msg hw,
      plainMinimax_unfold_some mines 0 c false msg hw]
  | none =>
    rw [minimax_unfold_min mines 0 c a be hw] at h ⊢
    rw [plainMinimax_unfold_min mines 0 c hw]
    have hbe : ((be, (⊤ : Score)) : Score × Score) = (min be ⊤, ⊤) := by
      rw [min_eq_left le_top]
    rw [hbe] at h ⊢
    exact (minPieceLoop_exact (fun c' a' be' => minimax mines 0 c' a' be' true)
      (fun c' => plainMinimax mines 0 c' true) c mines (fun _ _ _ => rfl)
      (piecesOf Color.red c) a be ⊤ hab h).1

/-! ### Depth-2 maximizing nodes, entered with alpha = bottom -/

theorem maxMoveLoop_link (ev : Board → Score → Score → Score) (b : Board)
    (pc : Piece) (beta : Score) :
    ∀ (mvs : List (ℤ × ℤ)) (m : Score),
      (maxMoveLoop ev b pc beta mvs (m, m)).1 =
        (maxMoveLoop ev b pc beta mvs (m, m)).2 := by
  intro mvs
  induction mvs with
  | nil => intro m; rfl
  | cons mv rest ih =>
    intro m
    simp only [maxMoveLoop]
    split
    · rfl
    · exact ih _

theorem maxPieceLoop_link (ev : Board → Score → Score → Score) (b : Board)
    (mines : Mines) (beta : Score) :
    ∀ (pcs : List Piece) (m : Score),
      (maxPieceLoop ev b mines beta pcs (m, m)).1 =
        (maxPieceLoop ev b mines beta pcs (m, m)).2 := by
  intro pcs
  induction pcs with
  | nil => intro m; rfl
  | cons pc rest ih =>
    intro m
    simp only [maxPieceLoop]
    have hst : maxMoveLoop ev b pc beta (get_valid_moves pc b mines) (m, m) =
        ((maxMoveLoop ev b pc beta (get_valid_moves pc b mines) (m, m)).2,
         (maxMoveLoop ev b pc beta (get_valid_moves pc b mines) (m, m)).2) :=
      Prod.ext (maxMoveLoop_link ev b pc beta _ m) rfl
    rw [hst]
    exact ih _

theorem maxMoveLoop_window (ev : Board → Score → Score → Score)
    (v : Board → Score) (b : Board)
    (hge : ∀ c a be, v c ≤ ev c a be)
    (hexact : ∀ c a be, a < be → a < ev c a be → ev c a be = v c)
    (pc : Piece) :
    ∀ (mvs : List (ℤ × ℤ)) (B m : Score), m < B →
      ((maxMoveLoop ev b pc B mvs (m, m)).2 < B →
        (maxMoveLoop ev b pc B mvs (m, m)).2 = plainMoveFoldMax v b pc mvs m) ∧
      (B ≤ (maxMoveLoop ev b pc B mvs (m, m)).2 →
        B ≤ plainMoveFoldMax v b pc mvs m) := by
  intro mvs
  induction mvs with
  | nil =>
    intro B m hm
    exact ⟨fun _ => rfl, fun hB => hB⟩
  | cons mv rest ih =>
    intro B m hm
    simp only [maxMoveLoop, plainMoveFoldMax]
    split_ifs with hcut
    · -- cutoff after this child: B ≤ max m e, so the child crossed B
      have hBe : B ≤ ev (applyMove b pc mv) m B := by
        by_contra hlt
        push_neg at hlt
        exact absurd hcut (not_le.mpr (max_lt hm hlt))
      have hme : m < ev (applyMove b pc mv) m B := lt_of_lt_of_le hm hBe
      have hev : ev (applyMove b pc mv) m B = v (applyMove b pc mv) :=
        hexact _ _ _ hm hme
      constructor
      · intro habs
        exact absurd habs (not_lt.mpr hcut)
      · intro _
        have hBp : B ≤ max m (v (applyMove b pc mv)) := by
          rw [← hev]
          exact hcut
        exact le_trans hBp (plainMoveFoldMax_mono v b pc rest _)
    · -- no cutoff: the running maximum stays below B and tracks the plain fold
      have hm' : max m (ev (applyMove b pc mv) m B) < B := not_le.mp hcut
      have hstep : max m (ev (applyMove b pc mv) m B) =
          max m (v (applyMove b pc mv)) := by
        rcases le_or_lt (ev (applyMove b pc mv) m B) m with hle | hlt
        · rw [max_eq_left hle, max_eq_left (le_trans (hge _ _ _) hle)]
        · rw [hexact _ _ _ hm hlt]
      rw [← hstep]
      exact ih B (max m (ev (applyMove b pc mv) m B)) hm'

theorem maxPieceLoop_window (ev : Board → Score → Score → Score)
    (v : Board → Score) (b : Board) (mines : Mines)
    (hge : ∀ c a be, v c ≤ ev c a be)
    (hexact : ∀ c a be, a < be → a < ev c a be → ev c a be = v c) :
    ∀ (pcs : List Piece) (B m : Score), m < B →
      ((maxPieceLoop ev b mines B pcs (m, m)).2 < B →
        (maxPieceLoop ev b mines B pcs (m, m)).2 =
          plainPieceFoldMax v b mines pcs m) ∧
      (B ≤ (maxPieceLoop ev b mines B pcs (m, m)).2 →
        B ≤ plainPieceFoldMax v b mines pcs m) := by
  intro pcs
  induction pcs with
  | nil =>
    intro B m hm
    exact ⟨fun _ => rfl, fun hB => hB⟩
  | cons pc rest ih =>
    intro B m hm
    simp only [maxPieceLoop, plainPieceFoldMax]
    have hmv := maxMoveLoop_window ev v b hge hexact pc
      (get_valid_moves pc b mines) B m hm
    have hst : maxMoveLoop ev b pc B (get_valid_moves pc b mines) (m, m) =
        ((maxMoveLoop ev b pc B (get_valid_moves pc b mines) (m, m)).2,
         (maxMoveLoop ev b pc B (get_valid_moves pc b mines) (m, m)).2) :=
      Prod.ext (maxMoveLoop_link ev b pc B _ m) rfl
    rw [hst]
    rcases lt_or_le (maxMoveLoop ev b pc B (get_valid_moves pc b mines) (m, m)).2 B
      with hlt | hge2
    · rw [← hmv.1 hlt]
      exact ih B _ hlt
    · -- the window already closed on this piece
      have hmono := maxPieceLoop_le ev b mines B rest
        ((maxMoveLoop ev b pc B (get_valid_moves pc b mines) (m, m)).2,
         (maxMoveLoop ev b pc B (get_valid_moves pc b mines) (m, m)).2)
      constructor
      · intro habs
        exact absurd (lt_of_le_of_lt (le_trans hge2 hmono) habs) (lt_irrefl B)
      · intro _
        exact le_trans (hmv.2 hge2) (plainPieceFoldMax_mono v b mines rest _)

theorem minimax_two_window (mines : Mines) :
    ∀ (c : Board) (B : Score), ⊥ < B →
      (minimax mines 2 c ⊥ B true < B →
        minimax mines 2 c ⊥ B true = plainMinimax mines 2 c true) ∧
      (B ≤ minimax mines 2 c ⊥ B true → B ≤ plainMinimax mines 2 c true) := by
  intro c B hB
  cases hw : check_win_condition c with
  | some msg =>
    rw [minimax_unfold_some mines 1 c ⊥ B true msg hw,
      plainMinimax_unfold_some mines 1 c true msg hw]
    exact ⟨fun _ => rfl, fun h => h⟩
  | none =>
    rw [minimax_unfold_max mines 1 c ⊥ B hw, plainMinimax_unfold_max mines 1 c hw]
    exact maxPieceLoop_window (fun c' a' be' => minimax mines 1 c' a' be' false)
      (fun c' => plainMinimax mines 1 c' false) c mines
      (fun c' a' be' => minimax_one_ge mines c' a' be')
      (fun c' a' be' hab hlt => minimax_one_exact mines c' a' be' hab hlt)
      (piecesOf Color.blue c) B ⊥ hB

/-! ### The root minimizing node, entered with alpha = bottom, beta = top -/

theorem minMoveLoop_root (ev : Board → Score → Score → Score)
    (v : Board → Score) (b : Board)
    (hb1 : ∀ c B, ⊥ < B → ev c ⊥ B < B → ev c ⊥ B = v c)
    (hb2 : ∀ c B, ⊥ < B → B ≤ ev c ⊥ B → B ≤ v c)
    (pc : Piece) :
    ∀ (mvs : List (ℤ × ℤ)) (m : Score),
      (minMoveLoop ev b pc ⊥ mvs (m, m)).1 = (minMoveLoop ev b pc ⊥ mvs (m, m)).2 ∧
      (minMoveLoop ev b pc ⊥ mvs (m, m)).2 = plainMoveFoldMin v b pc mvs m := by
  intro mvs
  induction mvs with
  | nil => intro m; exact ⟨rfl, rfl⟩
  | cons mv rest ih =>
    intro m
    simp only [minMoveLoop, plainMoveFoldMin]
    have hstep : min m (ev (applyMove b pc mv) ⊥ m) =
        min m (v (applyMove b pc mv)) := by
      rcases eq_or_lt_of_le (bot_le : (⊥ : Score) ≤ m) with hbot | hm
      · rw [← hbot, min_eq_left bot_le, min_eq_left bot_le]
      · rcases lt_or_le (ev (applyMove b pc mv) ⊥ m) m with hlt | hle
        · rw [hb1 _ _ hm hlt]
        · rw [min_eq_left hle, min_eq_left (hb2 _ _ hm hle)]
    split_ifs with hcut
    · -- the running minimum hit bottom: everything is absorbed
      have h0 : min m (ev (applyMove b pc mv) ⊥ m) = ⊥ := le_bot_iff.mp hcut
      refine ⟨rfl, ?_⟩
      show min m (ev (applyMove b pc mv) ⊥ m) = plainMoveFoldMin v b pc rest _
      rw [← hstep, h0, plainMoveFoldMin_bot]
    · have hrec := ih (min m (ev (applyMove b pc mv) ⊥ m))
      rw [hstep] at hrec
      rw [hstep]
      exact hrec

theorem minPieceLoop_root (ev : Board → Score → Score → Score)
    (v : Board → Score) (b : Board) (mines : Mines)
    (hb1 : ∀ c B, ⊥ < B → ev c ⊥ B < B → ev c ⊥ B = v c)
    (hb2 : ∀ c B, ⊥ < B → B ≤ ev c ⊥ B → B ≤ v c) :
    ∀ (pcs : List Piece) (m : Score),
      (minPieceLoop ev b mines ⊥ pcs (m, m)).2 = plainPieceFoldMin v b mines pcs m := by
  intro pcs
  induction pcs with
  | nil => intro m; rfl
  | cons pc rest ih =>
    intro m
    simp only [minPieceLoop, plainPieceFoldMin]
    have hmv := minMoveLoop_root ev v b hb1 hb2 pc (get_valid_moves pc b mines) m
    have hst : minMoveLoop ev b pc ⊥ (get_valid_moves pc b mines) (m, m) =
        ((minMoveLoop ev b pc ⊥ (get_valid_moves pc b mines) (m, m)).2,
         (minMoveLoop ev b pc ⊥ (get_valid_moves pc b mines) (m, m)).2) :=
      Prod.ext hmv.1 rfl
    rw [hst]
    rw [← hmv.2]
    exact ih _

/-- The core equivalence: the depth-3 alpha-beta call made by best_move,
with its piece-local pruning, returns the same value as the unpruned
depth-3 recursion, on every board and mine set. -/
theorem minimax_three_eq_plain (mines : Mines) (b : Board) :
    minimax mines 3 b ⊥ ⊤ false = plainMinimax mines 3 b false := by
  cases hw : check_win_condition b with
  | some msg =>
    rw [minimax_unfold_some mines 2 b ⊥ ⊤ false msg hw,
      plainMinimax_unfold_some mines 2 b false msg hw]
  | none =>
    rw [minimax_unfold_min mines 2 b ⊥ ⊤ hw, plainMinimax_unfold_min mines 2 b hw]
    exact minPieceLoop_root (fun c' a' be' => minimax mines 2 c' a' be' true)
      (fun c' => plainMinimax mines 2 c' true) b mines
      (fun c' B hB hlt => (minimax_two_window mines c' B hB).1 hlt)
      (fun c' B hB hle => (minimax_two_window mines c' B hB).2 hle)
      (piecesOf Color.red b) ⊤

/-- C1: for every board and mine set and every candidate (Blue piece,
destination) pair enumerated by best_move, the score computed by the
alpha-beta minimax (depth 3, alpha = -infinity, beta = +infinity, with the
break that exits only the innermost per-piece move loop) equals the score
of the same depth-3 recursion with all pruning removed, so the set of
maximal-score candidates is identical under both searches. -/
theorem alphabeta_eq_plain :
    ∀ (mines : Mines) (b : Board),
      (∀ pm : Piece × (ℤ × ℤ), candScore b mines pm = plainCandScore b mines pm) ∧
      bestCandidates b mines = plainBestCandidates b mines := by
  intro mines b
  have hpt : ∀ pm : Piece × (ℤ × ℤ),
      candScore b mines pm = plainCandScore b mines pm := by
    intro pm
    exact minimax_three_eq_plain mines (applyMove b pm.1 pm.2)
  refine ⟨hpt, ?_⟩
  rw [bestCandidates, plainBestCandidates, funext hpt]

/-! ## Claim C3: the lookahead horizon of best_move -/

/-- C3 counterexample: on `exBoardC3` Blue has exactly one candidate
move, and the score best_move computes for it (the depth-3 search on the
post-candidate board) differs from the depth-2 search on that board.  A
search whose static evaluations all lie within 3 half-moves of the
current position, counting the candidate as the first, is exactly the
depth-2 search on the post-candidate board, so the claimed 3-half-move
horizon is refuted: the candidate's score depends on positions 4
half-moves away. -/
theorem lookahead_counterexample :
    candidatePairs exBoardC3 exMinesC3 = [(exPieceC3, (3, 0))] ∧
    candScore exBoardC3 exMinesC3 (exPieceC3, (3, 0)) =
      minimax exMinesC3 3 (applyMove exBoardC3 exPieceC3 (3, 0)) ⊥ ⊤ false ∧
    minimax exMinesC3 3 (applyMove exBoardC3 exPieceC3 (3, 0)) ⊥ ⊤ false ≠
      minimax exMinesC3 2 (applyMove exBoardC3 exPieceC3 (3, 0)) ⊥ ⊤ false :=
  ⟨by decide, rfl, by decide⟩

/-- C3 amended: best_move evaluates each candidate by the fixed depth-3
recursion on the post-candidate board, so the AI looks ahead 4 half-moves
including its own move: every position whose static evaluation a depth-d
call consults lies exactly d legal half-moves below that call's board
(hence exactly 3 half-moves below the candidate board, 4 from the current
position counting Blue's candidate move as the first). -/
theorem evalPositions_reach :
    (∀ (b : Board) (mines : Mines) (pm : Piece × (ℤ × ℤ)),
      candScore b mines pm = minimax mines 3 (applyMove b pm.1 pm.2) ⊥ ⊤ false) ∧
    (∀ (mines : Mines) (d : ℕ) (b : Board) (p : Bool) (pos : Board),
      pos ∈ evalPositions mines d b p → ReachN mines d b p pos) := by
  constructor
  · intro b mines pm
    rfl
  · intro mines d
    induction d with
    | zero =>
      intro b p pos hpos
      rw [evalPositions] at hpos
      cases hw : check_win_condition b with
      | some msg =>
        rw [hw] at hpos
        simp at hpos
      | none =>
        rw [hw] at hpos
        simp only [List.mem_singleton] at hpos
        exact hpos
    | succ n ih =>
      intro b p pos hpos
      rw [evalPositions] at hpos
      cases hw : check_win_condition b with
      | some msg =>
        rw [hw] at hpos
        simp at hpos
      | none =>
        rw [hw] at hpos
        simp only [List.mem_flatten, List.mem_map] at hpos
        obtain ⟨L, ⟨pc, hpc, hL⟩, hposL⟩ := hpos
        rw [← hL] at hposL
        simp only [List.mem_flatten, List.mem_map] at hposL
        obtain ⟨L2, ⟨mv, hmv, hL2⟩, hposL2⟩ := hposL
        rw [← hL2] at hposL2
        exact ⟨pc, mv, hpc, hmv, ih (applyMove b pc mv) (!p) pos hposL2⟩

/-- C3 amended witness: a position consulted by a depth-1 call on the
board with one Blue piece is reachable by exactly one Blue half-move. -/
theorem evalPositions_reach_witness :
    applyMove exBoardC7 ⟨4, 2, Color.blue⟩ (4, 1) ∈
      evalPositions ∅ 1 exBoardC7 true ∧
    ReachN ∅ 1 exBoardC7 true (applyMove exBoardC7 ⟨4, 2, Color.blue⟩ (4, 1)) :=
  ⟨by decide, evalPositions_reach.2 ∅ 1 exBoardC7 true
    (applyMove exBoardC7 ⟨4, 2, Color.blue⟩ (4, 1)) (by decide)⟩

end MineCheckers
